import Mathlib

/-!
Verification of the synchronization and table-rebuild engine of
`sync_submissions_to_docs.py`: the deduplicating batch store, the
heading-path table locator, and the clear/insert table rebuilder.

The Python source is shallowly embedded: each Python function the claims
depend on becomes a Lean definition of the same name (snake_case kept where
Lean allows).  The remote Google-Docs service is modelled by explicit state
passing: the character stream of the document is a `List Char`, the located
table is a list of rows of cell strings, and the outcome of each remote call
that may fail is an explicit argument.  Python exceptions are modelled with
`Except`; `Option` models `None`.
-/

namespace SyncDocs

/-! ### Batch entries (`make_batch_entry` output / JSON store values)

A stored entry is a JSON object; the code reads each field with
`it.get(field, default)`, so every field is modelled as optional. -/

structure BatchEntry where
  date : Option String
  topic : Option String
  number : Option String
  problem : Option String
  result : Option String
deriving Repr, DecidableEq

/-- `it.get(key, default)` on a batch-entry field. -/
def eget (f : Option String) (d : String) : String := f.getD d

/-! ### Python `int(...)` on strings

`int(s)` strips whitespace, accepts an optional sign followed by at least one
decimal digit, and raises `ValueError` otherwise (modelled as `none`). -/

def stripWs (cs : List Char) : List Char :=
  ((cs.dropWhile Char.isWhitespace).reverse.dropWhile Char.isWhitespace).reverse

/-- Python `str.strip()`. -/
def pytrim (s : String) : String := String.mk (stripWs s.toList)

/-- Python `str.lower()`. -/
def pylower (s : String) : String := String.mk (s.toList.map Char.toLower)

/-- Python `str.split(sep)` for a one-character separator. -/
def splitOnC (sep : Char) : List Char → List (List Char)
  | [] => [[]]
  | c :: rest =>
      if c = sep then [] :: splitOnC sep rest
      else
        match splitOnC sep rest with
        | [] => [[c]]
        | p :: ps => (c :: p) :: ps

/-- The maximal non-whitespace runs of a string (whitespace-run splitting). -/
def splitWsAux : List Char → List Char → List (List Char)
  | [], acc => if acc = [] then [] else [acc.reverse]
  | c :: rest, acc =>
      if c.isWhitespace then
        if acc = [] then splitWsAux rest []
        else acc.reverse :: splitWsAux rest []
      else splitWsAux rest (c :: acc)

def splitWsParts (cs : List Char) : List (List Char) := splitWsAux cs []

def digitsToNat (cs : List Char) : Nat :=
  cs.foldl (fun n c => n * 10 + (c.toNat - '0'.toNat)) 0

def pyInt (s : String) : Option Int :=
  match stripWs s.toList with
  | [] => none
  | '-' :: ds =>
      if ds ≠ [] ∧ ds.all Char.isDigit then some (-(digitsToNat ds : Int)) else none
  | '+' :: ds =>
      if ds ≠ [] ∧ ds.all Char.isDigit then some (digitsToNat ds : Int) else none
  | ds =>
      if ds.all Char.isDigit then some (digitsToNat ds : Int) else none

/-! ### `datetime.strptime(s, "%d-%m-%Y")` and `date_key`

`%d` is one or two digits in 1..31, `%m` one or two digits in 1..12, `%Y`
exactly four digits; the resulting `datetime` must be a real calendar date
with year ≥ 1.  An unparseable string falls back to `datetime.min`,
i.e. year 1, month 1, day 1. -/

def isLeap (y : Nat) : Bool :=
  (y % 4 == 0 && y % 100 != 0) || y % 400 == 0

def daysInMonth (y m : Nat) : Nat :=
  if m = 2 then (if isLeap y then 29 else 28)
  else if m = 4 ∨ m = 6 ∨ m = 9 ∨ m = 11 then 30
  else 31

/-- A numeric field of the date: all digits, within the length bounds. -/
def numField (cs : List Char) (lo hi : Nat) : Option Nat :=
  if lo ≤ cs.length ∧ cs.length ≤ hi ∧ cs.all Char.isDigit then
    some (digitsToNat cs)
  else none

/-- Parse the date half of a format: three `sep`-separated fields, year first
(`%Y-%m-%d`) or day first (`%d-%m-%Y`); the constructed `datetime` must be a
real calendar date with year ≥ 1.  `some (y, m, d)` on success. -/
def parseDateFields (sep : Char) (yearFirst : Bool) (dp : List Char) : Option (Nat × Nat × Nat) :=
  match splitOnC sep dp with
  | [a, b, c] =>
      let (ys, ms, ds) := if yearFirst then (a, b, c) else (c, b, a)
      match numField ds 1 2, numField ms 1 2, numField ys 4 4 with
      | some d, some m, some y =>
          if 1 ≤ d ∧ 1 ≤ m ∧ m ≤ 12 ∧ 1 ≤ y ∧ d ≤ daysInMonth y m then
            some (y, m, d)
          else none
      | _, _, _ => none
  | _ => none

/-- Parse `"%d-%m-%Y"`; `some (y, m, d)` on success. -/
def parseDMY (s : String) : Option (Nat × Nat × Nat) :=
  parseDateFields '-' false s.toList

/-- `date_key` encoded order-faithfully as a natural number
(`datetime(y,m,d) ↦ y*10000 + m*100 + d`, `datetime.min ↦ 10101`). -/
def date_key (s : String) : Nat :=
  match parseDMY s with
  | some (y, m, d) => y * 10000 + m * 100 + d
  | none => 10101

/-! ### The rebuilder's sort key: `(date_key(date), int(number))`, `reverse=True` -/

/-- The tuple key `(date_key(it.get("date", "01-01-1970")), int(it.get("number", "0")))`.
Total function: the `int` failure case is checked separately (it raises). -/
def sortKey (it : BatchEntry) : Nat × Int :=
  (date_key (eget it.date "01-01-1970"), (pyInt (eget it.number "0")).getD 0)

/-- Lexicographic `≤` on the tuple key, as Python compares tuples. -/
def keyLe (a b : Nat × Int) : Bool :=
  a.1 < b.1 || (a.1 == b.1 && a.2 ≤ b.2)

/-- `items.sort(key=..., reverse=True)` comparator: descending by key
(stable for equal keys, as Python's sort). -/
def descLe (x y : BatchEntry) : Bool := keyLe (sortKey y) (sortKey x)

theorem keyLe_trans (a b c : Nat × Int) (h1 : keyLe a b) (h2 : keyLe b c) : keyLe a c := by
  simp only [keyLe, Bool.or_eq_true, Bool.and_eq_true, decide_eq_true_eq, beq_iff_eq] at *
  rcases h1 with h1 | ⟨h1, h1'⟩ <;> rcases h2 with h2 | ⟨h2, h2'⟩
  · exact Or.inl (lt_trans h1 h2)
  · exact Or.inl (h2 ▸ h1)
  · exact Or.inl (h1 ▸ h2)
  · exact Or.inr ⟨h1.trans h2, le_trans h1' h2'⟩

theorem keyLe_total (a b : Nat × Int) : keyLe a b || keyLe b a := by
  simp only [keyLe, Bool.or_eq_true, Bool.and_eq_true, decide_eq_true_eq, beq_iff_eq]
  rcases lt_trichotomy a.1 b.1 with h | h | h
  · exact Or.inl (Or.inl h)
  · rcases le_total a.2 b.2 with h' | h'
    · exact Or.inl (Or.inr ⟨h, h'⟩)
    · exact Or.inr (Or.inr ⟨h.symm, h'⟩)
  · exact Or.inr (Or.inl h)

theorem descLe_trans (a b c : BatchEntry) (h1 : descLe a b) (h2 : descLe b c) :
    descLe a c := keyLe_trans _ _ _ h2 h1

theorem descLe_total (a b : BatchEntry) : descLe a b || descLe b a := by
  simpa [descLe, Bool.or_comm] using keyLe_total (sortKey b) (sortKey a)

/-! ### `try_parse_time`: the four `TIME_FORMATS` plus the ISO-regex fallback -/

/-- The time half `"%H:%M:%S"`: hour 0..23, minute and second 0..59,
each one or two digits. -/
def parseHMS (tp : List Char) : Bool :=
  match splitOnC ':' tp with
  | [hs, ms, ss] =>
      match numField hs 1 2, numField ms 1 2, numField ss 1 2 with
      | some h, some m, some s => h ≤ 23 && m ≤ 59 && s ≤ 59
      | _, _, _ => false
  | _ => false

/-- One `strptime` format `"<date> <time>"`: the literal space matches a
whitespace run, the whole string must be consumed. -/
def parseFmt (sep : Char) (yearFirst : Bool) (t : List Char) : Option (Nat × Nat × Nat) :=
  match splitWsParts t with
  | [dp, tp] =>
      match parseDateFields sep yearFirst dp with
      | some r => if parseHMS tp then some r else none
      | none => none
  | _ => none

/-- Shape match for `\d{4}-\d{2}-\d{2}[ T]\d{2}:\d{2}:\d{2}` at the head of
the character list; values are not yet validated (that is `fromisoformat`). -/
def isoShapeAt (cs : List Char) : Option ((Nat × Nat × Nat) × (Nat × Nat × Nat)) :=
  match cs with
  | y1 :: y2 :: y3 :: y4 :: '-' :: a1 :: a2 :: '-' :: b1 :: b2 :: sep ::
      h1 :: h2 :: ':' :: n1 :: n2 :: ':' :: c1 :: c2 :: _ =>
      if [y1, y2, y3, y4, a1, a2, b1, b2, h1, h2, n1, n2, c1, c2].all Char.isDigit
          ∧ (sep = ' ' ∨ sep = 'T') then
        some ((digitsToNat [y1, y2, y3, y4], digitsToNat [a1, a2], digitsToNat [b1, b2]),
              (digitsToNat [h1, h2], digitsToNat [n1, n2], digitsToNat [c1, c2]))
      else none
  | _ => none

/-- `re.search`: leftmost shape match wins. -/
def isoSearch : List Char → Option ((Nat × Nat × Nat) × (Nat × Nat × Nat))
  | [] => none
  | c :: rest =>
      match isoShapeAt (c :: rest) with
      | some r => some r
      | none => isoSearch rest

/-- `datetime.fromisoformat` on the matched window; an invalid date-time
raises, which the caller swallows into `None`. -/
def isoFallback (t : List Char) : Option (Nat × Nat × Nat) :=
  match isoSearch t with
  | some ((y, mo, d), (h, mi, sec)) =>
      if 1 ≤ y ∧ 1 ≤ mo ∧ mo ≤ 12 ∧ 1 ≤ d ∧ d ≤ daysInMonth y mo
          ∧ h ≤ 23 ∧ mi ≤ 59 ∧ sec ≤ 59 then
        some (y, mo, d)
      else none
  | none => none

/-- `try_parse_time`: strip, try the four formats in order, then the ISO
fallback; `some (y, m, d)` is the date of the parsed `datetime`. -/
def try_parse_time (s : String) : Option (Nat × Nat × Nat) :=
  let t := stripWs s.toList
  (parseFmt '-' true t).orElse fun _ =>
  (parseFmt '/' true t).orElse fun _ =>
  (parseFmt '-' false t).orElse fun _ =>
  (parseFmt '/' false t).orElse fun _ =>
  isoFallback t

/-- Zero-pad a numeral to `k` digits. -/
def pad (k n : Nat) : String :=
  let s := toString n
  String.mk (List.replicate (k - s.length) '0') ++ s

/-- `dt.strftime("%d-%m-%Y")`. -/
def fmtDMY (y m d : Nat) : String := pad 2 d ++ "-" ++ pad 2 m ++ "-" ++ pad 4 y

/-! ### Reference lookup (`problem_topics.json`) and `getCodeAndTopic` -/

/-- One record of `problem_topics.json` (written by `export_problem_topics.py`). -/
structure RefRec where
  code : String
  title : String
  sub_group : String
deriving Repr, DecidableEq

/-- `url.rstrip('/')`. -/
def rstripSlash (s : String) : String :=
  String.mk (s.toList.reverse.dropWhile (· = '/')).reverse

/-- `url.rstrip('/').split('/')[-1]`. -/
def lastSeg (url : String) : String :=
  String.mk ((splitOnC '/' (rstripSlash url).toList).getLastD [])

/-- `getCodeAndTopic`, returning the Python tuple as a list (the arity is
observable: the caller unpacks it).  `db = none` models an unreadable
`problem_topics.json` (`json.load` raised).  The `by_code` dict comprehension
is keyed by `title` and keeps the last record per title, hence
`reverse.find?`.  On a missing key, `.get(code_key, "Unknown")` yields the
bare 7-character string `"Unknown"`, whose 2-way unpacking raises
`ValueError`; the blanket `except` then returns the 2-tuple `("", "")`. -/
def getCodeAndTopic (db : Option (List RefRec)) (problem_url : String) : List String :=
  match db with
  | none => ["", ""]
  | some recs =>
      let code_key := lastSeg problem_url
      match recs.reverse.find? (fun r => r.title == code_key) with
      | some r => [r.code, code_key, r.sub_group]
      | none => ["", ""]

/-! ### `make_batch_entry` and the merge loop of `sync` -/

/-- A raw scraped row, as produced by `parse_rows`. -/
structure RawItem where
  id : String
  time_text : String
  problem : String
  result : String
  problem_url : Option String
  compiler : String
deriving Repr, DecidableEq

/-- `make_batch_entry`: `.ok none` models `return None` (row rejected),
`.ok (some e)` an accepted entry, `.error ()` an uncaught `ValueError`
(`number, code, topic = getCodeAndTopic(url)` unpacking a non-3-tuple). -/
def make_batch_entry (db : Option (List RefRec)) (item : RawItem) :
    Except Unit (Option BatchEntry) :=
  let res := pytrim item.result
  if ¬(res = "AC" ∧ pylower (pytrim item.compiler) = "java") then
    .ok none
  else
    let url := item.problem_url.getD ""
    if url = "" then .ok none
    else
      let date_text :=
        match try_parse_time item.time_text with
        | some (y, m, d) => fmtDMY y m d
        | none => item.time_text
      match getCodeAndTopic db url with
      | [number, _code, topic] =>
          .ok (some ⟨some date_text, some topic, some number, some item.problem, some res⟩)
      | _ => .error ()

/-- The batch store: a JSON object, i.e. an insertion-ordered mapping from
the `number` business key to an entry. -/
abbrev Store := List (String × BatchEntry)

def hasKey (b : Store) (k : String) : Bool := b.any (fun p => p.1 == k)

/-- The business key under which `sync` stores an entry: `entry["number"]`
(always set by `make_batch_entry`). -/
def keyOf (e : BatchEntry) : String := eget e.number ""

/-- The sole write path into the store (`sync`): `key = entry["number"]`;
`if key not in batch: batch[key] = entry`. -/
def mergeEntry (b : Store) (e : BatchEntry) : Store :=
  if hasKey b (keyOf e) then b else b ++ [(keyOf e, e)]

/-- The per-page row loop of `sync`: classify each row, merge accepted
entries; an uncaught classification error aborts the run. -/
def runSync (db : Option (List RefRec)) (b : Store) : List RawItem → Except Unit Store
  | [] => .ok b
  | item :: rest =>
      match make_batch_entry db item with
      | .error e => .error e
      | .ok none => runSync db b rest
      | .ok (some entry) => runSync db (mergeEntry b entry) rest

/-! ### The located table and the rebuild pipeline

The remote table is modelled as its list of rows, each row the list of its
cells' text contents (row 0 is the header).  Structural requests are modelled
by their effect on this state; every inserted row has the table's column
count, with every cell initially empty. -/

abbrev Row := List String

/-- The row built from one entry: `date | topic | number | problem | result`. -/
def toRow (it : BatchEntry) : Row :=
  [eget it.date "", eget it.topic "", eget it.number "", eget it.problem "", eget it.result ""]

/-- `clear_table_body` on the success path (every `deleteTableRow` call
succeeds; transient failures are modelled in `clearSim` below): re-read the
row count, delete row index 1 while more than the header remains. -/
def clearTableBody (t : List Row) : List Row :=
  if _h : t.length ≤ 1 then t
  else clearTableBody (t.eraseIdx 1)
termination_by t.length
decreasing_by
  simp only [List.length_eraseIdx]
  split <;> omega

/-- Filling one freshly inserted row: cell `c` receives `data[c]` for
`c < min(len(cells), len(rows_data[0]))`; other cells keep their empty
content (an empty `text_to_insert` is skipped, leaving the same empty cell). -/
def fillRow (cols width0 : Nat) (data : Row) : Row :=
  (List.range cols).map fun c =>
    if c < width0 then ((data.get? c).getD "") else ""

/-- `append_rows_and_fill_docs`: zero rows to add returns immediately; a
table with no rows at all cannot be appended to (`none` models
`return False`); otherwise the new rows are appended after the last existing
row and their cells filled from `rows_data` (offset-descending text
insertion; its correctness is the subject of the insertion model below). -/
def append_rows_and_fill_docs (t : List Row) (rows_data : List Row) : Option (List Row) :=
  if rows_data.length = 0 then some t
  else
    match t with
    | [] => none
    | header :: _ =>
        let cols := header.length
        some (t ++ rows_data.map (fillRow cols (rows_data.headD []).length))

/-- `rebuild_table_from_batch`: clear the data rows, sort the store's values
by descending `(date_key(date), int(number))`, append and fill.
`.error ()` models the uncaught `ValueError` that `int()` raises inside the
sort key when some entry's `number` (default `"0"`) is not numeric;
`.ok none` models `return False`. -/
def rebuild_table_from_batch (t : List Row) (batch : Store) :
    Except Unit (Option (List Row)) :=
  let t1 := clearTableBody t
  let items := batch.map Prod.snd
  if items.all (fun it => (pyInt (eget it.number "0")).isSome) then
    let sortedItems := items.mergeSort descLe
    .ok (append_rows_and_fill_docs t1 (sortedItems.map toRow))
  else
    .error ()

/-! ### The clear loop with transient delete failures (`clear_table_body`)

`deleteOk call` is the outcome of the `call`-th `batchUpdate` delete request.
The loop re-fetches the document and re-locates the table before every
delete, so the row count seen at each iteration is the true one; a successful
delete removes exactly row index 1; a failed one increments `attempts`, and
reaching `max_attempts` aborts.  Result: `(returned value, successful delete
calls, failed delete calls)`. -/

def clearSim (deleteOk : Nat → Bool) (call rows attempts maxAttempts : Nat) :
    Bool × Nat × Nat :=
  if rows ≤ 1 then (true, 0, 0)
  else if deleteOk call then
    let r := clearSim deleteOk (call + 1) (rows - 1) attempts maxAttempts
    (r.1, r.2.1 + 1, r.2.2)
  else if attempts + 1 ≥ maxAttempts then (false, 0, 1)
  else
    let r := clearSim deleteOk (call + 1) rows (attempts + 1) maxAttempts
    (r.1, r.2.1, r.2.2 + 1)
termination_by (rows, maxAttempts - attempts)
decreasing_by
  · exact Prod.Lex.left _ _ (by omega)
  · exact Prod.Lex.right _ (by omega)

/-- `clear_table_body(doc_id, docs_service, section, max_attempts=200)` run
against a table that currently has `rows` rows. -/
def clear_table_body (deleteOk : Nat → Bool) (rows : Nat) : Bool × Nat × Nat :=
  clearSim deleteOk 0 rows 0 200

/-! ### `load_batch` / `save_batch` (the JSON store file) -/

/-- A JSON value, as far as `load_batch` observes it. -/
inductive Json
  | null
  | bool (b : Bool)
  | num (n : Int)
  | str (s : String)
  | arr (xs : List Json)
  | obj (kvs : List (String × Json))
deriving Repr

/-- The store file as seen by `load_batch`: absent, or present with content. -/
inductive FileState
  | absent
  | present (content : String)
deriving Repr, DecidableEq

/-- The body of `load_batch`'s `try` block.  `jsonLoads` is the environment's
`json.loads`; `none` means it raised (malformed JSON), which escapes the body
as `.error ()`. -/
def load_batch_body (jsonLoads : String → Option Json) (fs : FileState) :
    Except Unit (List (String × Json)) :=
  match fs with
  | .absent => .ok []
  | .present content =>
      let c := pytrim content
      if c = "" then .ok []
      else
        match jsonLoads c with
        | none => .error ()
        | some (.obj kvs) => .ok kvs
        | some _ => .ok []

/-- `load_batch`: the blanket `except` turns any raise into the empty
mapping; it never raises. -/
def load_batch (jsonLoads : String → Option Json) (fs : FileState) :
    List (String × Json) :=
  match load_batch_body jsonLoads fs with
  | .ok b => b
  | .error _ => []

/-- Whether serializing the mapping to the store file can complete. -/
inductive WriteOutcome
  | ok
  | failed
deriving Repr, DecidableEq

/-- `save_batch`: result is `(raised, log line)`.  Both branches return
normally — the `except` swallows the error and prints a warning. -/
def save_batch (w : WriteOutcome) (entries : Nat) : Bool × String :=
  match w with
  | .ok => (false, "[batch] saved " ++ toString entries ++ " entries")
  | .failed => (false, "[batch warn] failed saving")

/-! ### The document snapshot and `choose_table_by_section` -/

/-- A top-level content element of a document snapshot: a paragraph with its
named style and text runs, or a table. -/
inductive DocElem
  | para (namedStyleType : String) (runs : List String)
  | table (rows : List Row)

/-- `extract_paragraph_text`: join the text runs and strip; non-paragraph
elements yield the empty string. -/
def extract_paragraph_text : DocElem → String
  | .para _ runs => pytrim (String.join runs)
  | .table _ => ""

/-- Collapse every whitespace run to a single space (`re.sub(r"\s+", " ")`);
the flag records whether the previous character was whitespace. -/
def squeezeWs : Bool → List Char → List Char
  | _, [] => []
  | prevWs, c :: rest =>
      if c.isWhitespace then
        if prevWs then squeezeWs true rest else ' ' :: squeezeWs true rest
      else c :: squeezeWs false rest

/-- `normalize`: casefold, keep alphanumerics and whitespace (everything else
becomes a space), collapse whitespace, strip. -/
def normalize (s : String) : String :=
  let folded := s.toList.map fun c =>
    let c' := c.toLower
    if c'.isAlphanum ∨ c'.isWhitespace then c' else ' '
  String.mk (stripWs (squeezeWs false folded))

/-- `re.split(r">|\||->|/", path)`: raw split at `>`, `|`, `/` and `->`. -/
def splitDelims : List Char → List (List Char)
  | [] => [[]]
  | '>' :: rest => [] :: splitDelims rest
  | '|' :: rest => [] :: splitDelims rest
  | '/' :: rest => [] :: splitDelims rest
  | '-' :: '>' :: rest => [] :: splitDelims rest
  | c :: rest =>
      match splitDelims rest with
      | [] => [[c]]
      | p :: ps => (c :: p) :: ps

/-- `split_section_path`: split, normalize each part, keep the non-empty
ones. -/
def split_section_path (path : String) : List String :=
  ((splitDelims path.toList).map (fun p => normalize (String.mk p))).filter (· ≠ "")

/-- The backward walk collecting the nearest non-empty `HEADING_1/2/3` texts
preceding a table; `prevs` lists the preceding elements nearest first.
The first text found at each level is kept (the `elif` chain), exactly as the
early `break` once all three are filled. -/
def collectHeadings : List DocElem → String → String → String → String × String × String
  | [], h1, h2, h3 => (h1, h2, h3)
  | e :: rest, h1, h2, h3 =>
      let txt := extract_paragraph_text e
      match e with
      | .table _ => collectHeadings rest h1 h2 h3
      | .para named _ =>
          if txt = "" then collectHeadings rest h1 h2 h3
          else if named = "HEADING_3" ∧ h3 = "" then collectHeadings rest h1 h2 txt
          else if named = "HEADING_2" ∧ h2 = "" then collectHeadings rest h1 txt h3
          else if named = "HEADING_1" ∧ h1 = "" then collectHeadings rest txt h2 h3
          else collectHeadings rest h1 h2 h3

/-- A candidate: a table element with its document position and the three
collected heading texts. -/
structure Cand where
  idx : Nat
  rows : List Row
  h1 : String
  h2 : String
  h3 : String

/-- The candidate built at document position `i`: a table element with the
headings collected from the up-to-99 elements preceding it
(`range(i - 1, max(i - 100, -1), -1)`), or nothing. -/
def candAt (content : List DocElem) (i : Nat) : Option Cand :=
  match content.get? i with
  | some (DocElem.table rows) =>
      let h := collectHeadings (((content.take i).reverse).take 99) "" "" ""
      some ⟨i, rows, h.1, h.2.1, h.2.2⟩
  | _ => none

/-- All tables of the document in document order, with their headings. -/
def candidates (content : List DocElem) : List Cand :=
  (List.range content.length).filterMap (candAt content)

/-- `any(p in parts for p in target_parts)` where `parts` is the candidate's
normalized non-empty heading texts. -/
def matchesTarget (target_parts : List String) (c : Cand) : Bool :=
  let parts := [normalize c.h1, normalize c.h2, normalize c.h3].filter (· ≠ "")
  target_parts.any fun p => parts.contains p

/-- `choose_table_by_section`: empty target path returns `None`; otherwise
the first matching candidate in document order, or `None` when none
matches. -/
def choose_table_by_section (content : List DocElem) (section_name : String) : Option Cand :=
  let target_parts := split_section_path section_name
  if target_parts = [] then none
  else
    let found := (candidates content).filter (matchesTarget target_parts)
    found.head?

/-! ### The character-stream insertion model (`insertText`)

The insert phase of `append_rows_and_fill_docs` computes all cell
`(offset, text)` targets from one fresh snapshot, sorts them by offset
descending (`insert_requests.sort(key=..., reverse=True)`) and applies them
in that order.  The document's character stream is a `List Char`; applying
one insertion splices the text at the given offset, shifting everything at or
after it. -/

abbrev InsertOp := Nat × List Char

/-- One `insertText` request applied to the stream. -/
def applyInsert (doc : List Char) (op : InsertOp) : List Char :=
  doc.take op.1 ++ op.2 ++ doc.drop op.1

/-- Applying a list of requests in the given order. -/
def applyOps (doc : List Char) (ops : List InsertOp) : List Char :=
  ops.foldl applyInsert doc

/-- Shift the offsets of pending operations down by `n` (re-anchoring them
inside the suffix of the snapshot starting at `n`). -/
def shiftOps (n : Nat) (ops : List InsertOp) : List InsertOp :=
  ops.map fun op => (op.1 - n, op.2)

/-- The intended simultaneous result: every text placed at the point of the
original snapshot its offset denoted.  Defined over the operations listed in
ascending offset order. -/
def insertsSimul : List Char → List InsertOp → List Char
  | doc, [] => doc
  | doc, (o, t) :: rest => doc.take o ++ t ++ insertsSimul (doc.drop o) (shiftOps o rest)
termination_by _ ops => ops.length
decreasing_by
  simp [shiftOps]

/-- Position update caused by inserting `len` characters at offset `o`:
positions at or after `o` shift right. -/
def shiftPos (o len p : Nat) : Nat :=
  if o ≤ p then p + len else p

/-- The landing positions of sequentially applied insertions: `acc` holds the
current positions of the texts already inserted; each new insertion lands at
its (stale) target offset and shifts the earlier texts at or after it. -/
def landedAux (acc : List Nat) : List InsertOp → List Nat
  | [] => acc
  | (o, t) :: rest => landedAux (acc.map (shiftPos o t.length) ++ [o]) rest

/-- Final position of each operation's text in the stream after applying the
operations in the given order. -/
def landedPositions (ops : List InsertOp) : List Nat :=
  landedAux [] ops

/-- The position an operation's text should occupy in the final stream: its
snapshot offset plus the lengths of all texts inserted at strictly lower
offsets. -/
def intendedPos (ops : List InsertOp) (op : InsertOp) : Nat :=
  op.1 + (((ops.filter fun q => q.1 < op.1).map fun q => q.2.length).sum)

/-! ## Store lemmas (merge, first-write-wins) -/

theorem hasKey_iff_mem (b : Store) (k : String) :
    hasKey b k = true ↔ k ∈ b.map Prod.fst := by
  simp only [hasKey, List.any_eq_true, List.mem_map, beq_iff_eq]

theorem find?_key_eq_none_iff (b : Store) (k : String) :
    b.find? (fun p => p.1 == k) = none ↔ hasKey b k = false := by
  rw [List.find?_eq_none]
  constructor
  · intro h
    rw [← Bool.not_eq_true, hasKey, List.any_eq_true]
    rintro ⟨x, hx, hk⟩
    exact h x hx hk
  · intro h x hx hk
    rw [← Bool.not_eq_true, hasKey, List.any_eq_true] at h
    exact h ⟨x, hx, hk⟩

theorem mergeEntry_nodup (b : Store) (e : BatchEntry)
    (hb : (b.map Prod.fst).Nodup) : ((mergeEntry b e).map Prod.fst).Nodup := by
  unfold mergeEntry
  split
  · exact hb
  · rename_i hk
    rw [List.map_append, List.nodup_append]
    refine ⟨hb, by simp, ?_⟩
    intro a ha hb'
    simp only [List.map_cons, List.map_nil, List.mem_singleton] at hb'
    subst hb'
    rw [← hasKey_iff_mem] at ha
    rw [Bool.not_eq_true] at hk
    rw [ha] at hk
    cases hk

theorem mergeEntry_of_hasKey (b : Store) (e : BatchEntry)
    (h : hasKey b (keyOf e) = true) : mergeEntry b e = b := by
  rw [mergeEntry, h]
  rfl

theorem mergeEntry_hasKey_mono (b : Store) (e : BatchEntry) (k : String)
    (h : hasKey b k = true) : hasKey (mergeEntry b e) k = true := by
  unfold mergeEntry
  split
  · exact h
  · simp only [hasKey, List.any_eq_true] at h ⊢
    rcases h with ⟨x, hx, hk⟩
    exact ⟨x, List.mem_append_left _ hx, hk⟩

theorem mergeEntry_hasKey_self (b : Store) (e : BatchEntry) :
    hasKey (mergeEntry b e) (keyOf e) = true := by
  unfold mergeEntry
  split
  · rename_i h
    exact h
  · simp [hasKey, List.any_eq_true]

/-- First-write-wins, generalized over the initial store: the lookup of `k`
after merging `entries` is the existing binding if present, else the first
merged entry carrying key `k`. -/
theorem foldl_mergeEntry_find? (entries : List BatchEntry) (b : Store) (k : String) :
    (entries.foldl mergeEntry b).find? (fun p => p.1 == k)
      = (b.find? (fun p => p.1 == k)).or
          ((entries.find? (fun x => keyOf x == k)).map fun x => (keyOf x, x)) := by
  induction entries generalizing b with
  | nil => simp
  | cons e rest ih =>
      rw [List.foldl_cons, ih]
      by_cases hke : keyOf e = k
      · subst hke
        by_cases hb : hasKey b (keyOf e) = true
        · rw [mergeEntry_of_hasKey b e hb]
          rcases hfind : b.find? (fun p => p.1 == keyOf e) with _ | x
          · rw [find?_key_eq_none_iff] at hfind
            rw [hfind] at hb
            cases hb
          · simp [List.find?_cons, hfind]
        · have hnone : b.find? (fun p => p.1 == keyOf e) = none :=
            (find?_key_eq_none_iff b (keyOf e)).mpr (by simpa using hb)
          have hmerge : mergeEntry b e = b ++ [(keyOf e, e)] := by
            simp [mergeEntry, keyOf] at hb ⊢
            simp [hb]
          rw [hmerge, List.find?_append, hnone]
          simp [List.find?_cons]
      · have hcons : (e :: rest).find? (fun x => keyOf x == k)
            = rest.find? (fun x => keyOf x == k) := by
          simp [List.find?_cons, hke]
        rw [hcons]
        unfold mergeEntry
        split
        · rfl
        · rw [List.find?_append]
          have hsing : ([(keyOf e, e)].find? (fun p => p.1 == k)) = none := by
            simp [List.find?_cons, hke]
          rw [hsing]
          simp

theorem foldl_mergeEntry_nodup (entries : List BatchEntry) (b : Store)
    (hb : (b.map Prod.fst).Nodup) :
    ((entries.foldl mergeEntry b).map Prod.fst).Nodup := by
  induction entries generalizing b with
  | nil => exact hb
  | cons e rest ih => exact ih _ (mergeEntry_nodup b e hb)

/-! ## `sync` run lemmas (idempotent re-run) -/

theorem runSync_hasKey_mono (db : Option (List RefRec)) (items : List RawItem)
    (b b' : Store) (k : String) (h : runSync db b items = .ok b')
    (hk : hasKey b k = true) : hasKey b' k = true := by
  induction items generalizing b with
  | nil =>
      rw [runSync] at h
      cases h
      exact hk
  | cons item rest ih =>
      rw [runSync] at h
      rcases hmk : make_batch_entry db item with e | oe
      · rw [hmk] at h
        cases h
      · rw [hmk] at h
        cases oe with
        | none => exact ih b h hk
        | some entry => exact ih _ h (mergeEntry_hasKey_mono b entry k hk)

theorem runSync_idempotent (db : Option (List RefRec)) (items : List RawItem)
    (b b' : Store) (h : runSync db b items = .ok b') :
    runSync db b' items = .ok b' := by
  induction items generalizing b with
  | nil =>
      rw [runSync] at h
      cases h
      rfl
  | cons item rest ih =>
      rw [runSync] at h
      rcases hmk : make_batch_entry db item with e | oe
      · rw [hmk] at h
        cases h
      · rw [hmk] at h
        cases oe with
        | none =>
            rw [runSync, hmk]
            exact ih b h
        | some entry =>
            have hkey : hasKey b' (keyOf entry) = true :=
              runSync_hasKey_mono db rest (mergeEntry b entry) b' (keyOf entry) h
                (mergeEntry_hasKey_self b entry)
            rw [runSync, hmk]
            show runSync db (mergeEntry b' entry) rest = Except.ok b'
            rw [mergeEntry_of_hasKey b' entry hkey]
            exact ih _ h

/-! ## Claim theorems: batch store and persistence -/

/-- C3: the Batch Store maps each `number` key to at most one entry (its key
list stays duplicate-free under the sole write path `mergeEntry`), the stored
entry under a key is the first accepted entry carrying that key, a merge of a
present key leaves the store unchanged, and merging across runs is merging
the concatenation. -/
theorem batch_store_unique_first_write (entries : List BatchEntry) (b : Store)
    (e : BatchEntry) (k : String) (hb : (b.map Prod.fst).Nodup) :
    ((entries.foldl mergeEntry []).map Prod.fst).Nodup
    ∧ ((entries.foldl mergeEntry []).find? (fun p => p.1 == k)
        = (entries.find? (fun x => keyOf x == k)).map fun x => (keyOf x, x))
    ∧ (hasKey b (keyOf e) = true → mergeEntry b e = b)
    ∧ ((mergeEntry b e).map Prod.fst).Nodup
    ∧ (∀ run1 run2 : List BatchEntry,
        (run1 ++ run2).foldl mergeEntry b = run2.foldl mergeEntry (run1.foldl mergeEntry b)) := by
  refine ⟨foldl_mergeEntry_nodup entries [] (by simp), ?_,
    mergeEntry_of_hasKey b e, mergeEntry_nodup b e hb, ?_⟩
  · rw [foldl_mergeEntry_find?]
    simp
  · intro run1 run2
    exact List.foldl_append mergeEntry b run1 run2

theorem batch_store_unique_first_write_witness :
    (([⟨some "01-01-2024", some "t", some "7", some "p", some "AC"⟩,
       ⟨some "02-01-2024", some "u", some "7", some "q", some "AC"⟩].foldl mergeEntry
        ([] : Store)).find? (fun p => p.1 == "7")
      = some ("7", ⟨some "01-01-2024", some "t", some "7", some "p", some "AC"⟩)) := by
  have h := (batch_store_unique_first_write
    [⟨some "01-01-2024", some "t", some "7", some "p", some "AC"⟩,
     ⟨some "02-01-2024", some "u", some "7", some "q", some "AC"⟩]
    [] ⟨some "01-01-2024", some "t", some "7", some "p", some "AC"⟩ "7"
    (by simp)).2.1
  rw [h]
  decide

/-- C5 counterexample: the claim that a failed serialization propagates to
the caller is false — `save_batch`'s blanket `except` returns normally even
when the write cannot complete. -/
theorem save_batch_failure_not_propagated :
    ¬ ((save_batch WriteOutcome.failed 0).1 = true) := by decide

/-- C5 (amended): when serialization cannot complete, `save_batch` catches
the error, prints a `[batch warn]` line and returns normally; the failure
does not propagate, so the run can still report success. -/
theorem save_batch_fails_soft (w : WriteOutcome) (n : Nat) :
    (save_batch w n).1 = false
    ∧ (w = WriteOutcome.failed → (save_batch w n).2 = "[batch warn] failed saving") := by
  cases w <;> exact ⟨rfl, fun h => by simp_all [save_batch]⟩

theorem save_batch_fails_soft_witness :
    (save_batch WriteOutcome.failed 3).1 = false
    ∧ (save_batch WriteOutcome.failed 3).2 = "[batch warn] failed saving" :=
  ⟨(save_batch_fails_soft WriteOutcome.failed 3).1,
   (save_batch_fails_soft WriteOutcome.failed 3).2 rfl⟩

/-- C7: re-running the orchestrator's merge loop against an unchanged row
source leaves the store unchanged — every entry accepted in the second run
has a key already present, so no merge inserts — and the table rebuilt from
that unchanged store is unchanged. -/
theorem sync_rerun_unchanged (db : Option (List RefRec)) (items : List RawItem)
    (b b' : Store) (h : runSync db b items = .ok b') :
    ∃ b'', runSync db b' items = .ok b'' ∧ b'' = b'
      ∧ ∀ t : List Row, rebuild_table_from_batch t b'' = rebuild_table_from_batch t b' :=
  ⟨b', runSync_idempotent db items b b' h, rfl, fun _ => rfl⟩

theorem sync_rerun_unchanged_witness :
    ∃ b'', runSync (some [⟨"123", "J03007", "arrays"⟩])
        [("123", ⟨some "", some "arrays", some "123", some "Problem A", some "AC"⟩)]
        [⟨"1", "", "Problem A", "AC", some "https://x/J03007", "java"⟩] = Except.ok b''
      ∧ b'' = [("123", ⟨some "", some "arrays", some "123", some "Problem A", some "AC"⟩)]
      ∧ ∀ t : List Row, rebuild_table_from_batch t b'' = rebuild_table_from_batch t
          [("123", ⟨some "", some "arrays", some "123", some "Problem A", some "AC"⟩)] :=
  sync_rerun_unchanged (some [⟨"123", "J03007", "arrays"⟩])
    [⟨"1", "", "Problem A", "AC", some "https://x/J03007", "java"⟩] [] _ (by rfl)

/-- C9: loading the store never raises: absent file, empty (after strip)
content, malformed JSON (`json.loads` raised) and non-object top-level values
all yield the empty mapping; a top-level object is returned as the mapping. -/
theorem load_batch_total_cases (jl : String → Option Json) (fs : FileState) :
    (fs = FileState.absent → load_batch jl fs = [])
    ∧ ∀ content, fs = FileState.present content →
        (((pytrim content) = "" → load_batch jl fs = [])
        ∧ (jl (pytrim content) = none → load_batch jl fs = [])
        ∧ (∀ kvs, jl (pytrim content) = some (Json.obj kvs) → (pytrim content) ≠ "" →
            load_batch jl fs = kvs)
        ∧ (∀ j, jl (pytrim content) = some j → (∀ kvs, j ≠ Json.obj kvs) →
            load_batch jl fs = [])) := by
  constructor
  · intro h
    subst h
    rfl
  · intro content h
    subst h
    refine ⟨fun h0 => by simp [load_batch, load_batch_body, h0], ?_, ?_, ?_⟩
    · intro h0
      by_cases hc : (pytrim content) = "" <;>
        simp [load_batch, load_batch_body, h0, hc]
    · intro kvs h0 hc
      simp [load_batch, load_batch_body, h0, hc]
    · intro j h0 hobj
      by_cases hc : (pytrim content) = ""
      · simp [load_batch, load_batch_body, hc]
      · cases j <;> simp [load_batch, load_batch_body, h0, hc]
      <;> exact absurd rfl (hobj _)

theorem load_batch_total_cases_witness :
    load_batch (fun _ => none) (FileState.present "notjson,") = [] :=
  ((load_batch_total_cases (fun _ => none) (FileState.present "notjson,")).2 "notjson," rfl).2.1 rfl

/-! ## Clear-loop lemmas (C8) -/

theorem clearSim_spec (deleteOk : Nat → Bool) (call rows attempts maxAttempts : Nat) :
    attempts < maxAttempts →
      ((clearSim deleteOk call rows attempts maxAttempts).2.1
          + (clearSim deleteOk call rows attempts maxAttempts).2.2
          ≤ (rows - 1) + (maxAttempts - attempts))
      ∧ ((clearSim deleteOk call rows attempts maxAttempts).1 = true →
          (clearSim deleteOk call rows attempts maxAttempts).2.1 = rows - 1)
      ∧ ((clearSim deleteOk call rows attempts maxAttempts).1 = false →
          (clearSim deleteOk call rows attempts maxAttempts).2.2 = maxAttempts - attempts) := by
  induction call, rows, attempts, maxAttempts using clearSim.induct deleteOk with
  | case1 call rows attempts maxAttempts hle =>
      intro hlt
      rw [clearSim, if_pos hle]
      refine ⟨?_, fun _ => ?_, fun h => by exact absurd h (by decide)⟩
      · show 0 + 0 ≤ (rows - 1) + (maxAttempts - attempts)
        omega
      · show (0 : Nat) = rows - 1
        omega
  | case2 call rows attempts maxAttempts hle hdel ih =>
      intro hlt
      rcases ih hlt with ⟨ih1, ih2, ih3⟩
      rw [clearSim, if_neg hle, if_pos hdel]
      refine ⟨?_, ?_, ?_⟩
      · show (clearSim deleteOk (call + 1) (rows - 1) attempts maxAttempts).2.1 + 1
            + (clearSim deleteOk (call + 1) (rows - 1) attempts maxAttempts).2.2
            ≤ (rows - 1) + (maxAttempts - attempts)
        omega
      · intro h
        show (clearSim deleteOk (call + 1) (rows - 1) attempts maxAttempts).2.1 + 1 = rows - 1
        have := ih2 h
        omega
      · intro h
        exact ih3 h
  | case3 call rows attempts maxAttempts hle hdel hmax =>
      intro hlt
      rw [clearSim, if_neg hle, if_neg hdel, if_pos hmax]
      refine ⟨?_, fun h => by exact absurd h (by decide), fun _ => ?_⟩
      · show 0 + 1 ≤ (rows - 1) + (maxAttempts - attempts)
        omega
      · show 1 = maxAttempts - attempts
        omega
  | case4 call rows attempts maxAttempts hle hdel hmax ih =>
      intro hlt
      have hlt' : attempts + 1 < maxAttempts := by omega
      rcases ih hlt' with ⟨ih1, ih2, ih3⟩
      rw [clearSim, if_neg hle, if_neg hdel, if_neg hmax]
      refine ⟨?_, fun h => ih2 h, fun h => ?_⟩
      · show (clearSim deleteOk (call + 1) rows (attempts + 1) maxAttempts).2.1
            + ((clearSim deleteOk (call + 1) rows (attempts + 1) maxAttempts).2.2 + 1)
            ≤ (rows - 1) + (maxAttempts - attempts)
        omega
      · show (clearSim deleteOk (call + 1) rows (attempts + 1) maxAttempts).2.2 + 1
            = maxAttempts - attempts
        have := ih3 h
        omega

/-- C8: the clear phase, modelled over the per-call delete outcomes: each
iteration re-reads the current row count and each successful delete removes
exactly one row; the loop terminates with a bounded number of delete calls
(`(rows - 1)` successes plus at most the retry budget of failures); it
returns success exactly when it has reached a header-only table (deleting
exactly `rows - 1` data rows, immediately when `rows ≤ 1`); and when the
retry bound is exhausted it returns failure having issued exactly
`maxAttempts` failed deletes and no further mutations.  `clear_table_body`
instantiates the loop with the default bound of 200. -/
theorem clear_phase_terminates_and_bounds (deleteOk : Nat → Bool)
    (rows maxAttempts : Nat) (hm : 0 < maxAttempts) :
    (clear_table_body deleteOk rows = clearSim deleteOk 0 rows 0 200)
    ∧ ((clearSim deleteOk 0 rows 0 maxAttempts).2.1
        + (clearSim deleteOk 0 rows 0 maxAttempts).2.2 ≤ (rows - 1) + maxAttempts)
    ∧ ((clearSim deleteOk 0 rows 0 maxAttempts).1 = true →
        (clearSim deleteOk 0 rows 0 maxAttempts).2.1 = rows - 1)
    ∧ ((clearSim deleteOk 0 rows 0 maxAttempts).1 = false →
        (clearSim deleteOk 0 rows 0 maxAttempts).2.2 = maxAttempts)
    ∧ (rows ≤ 1 → clearSim deleteOk 0 rows 0 maxAttempts = (true, 0, 0)) := by
  have h := clearSim_spec deleteOk 0 rows 0 maxAttempts hm
  refine ⟨rfl, by simpa using h.1, h.2.1, by simpa using h.2.2, fun hle => ?_⟩
  rw [clearSim]
  simp [if_pos hle]

theorem clear_phase_terminates_and_bounds_witness :
    (clearSim (fun _ => false) 0 2 0 1).2.2 = 1 := by
  have h := clear_phase_terminates_and_bounds (fun _ => false) 2 1 (by decide)
  have hf : (clearSim (fun _ => false) 0 2 0 1).1 = false := by
    rw [clearSim]
    norm_num
  simpa using h.2.2.2.1 hf

/-! ## Table-locator lemmas (C6) -/

/-- The claim's match condition, spelled as set membership: some normalized
path segment equals some of the candidate's three normalized heading texts. -/
def specMatch (tp : List String) (c : Cand) : Prop :=
  ∃ p ∈ tp, p = normalize c.h1 ∨ p = normalize c.h2 ∨ p = normalize c.h3

theorem split_section_path_ne_empty (path : String) :
    ∀ p ∈ split_section_path path, p ≠ "" := by
  intro p hp
  have := (List.mem_filter.mp hp).2
  simpa using this

theorem matchesTarget_iff (tp : List String) (c : Cand) (htp : ∀ p ∈ tp, p ≠ "") :
    matchesTarget tp c = true ↔ specMatch tp c := by
  simp only [matchesTarget, specMatch, List.any_eq_true]
  constructor
  · rintro ⟨p, hp, hc⟩
    rcases List.contains_iff_exists_mem_beq.mp hc with ⟨q, hq, hbeq⟩
    have hpq : p = q := by simpa using hbeq
    subst hpq
    have := (List.mem_filter.mp hq).1
    simp only [List.mem_cons, List.mem_singleton, List.not_mem_nil, or_false] at this
    exact ⟨p, hp, this⟩
  · rintro ⟨p, hp, hc⟩
    refine ⟨p, hp, List.contains_iff_exists_mem_beq.mpr ⟨p, ?_, by simp⟩⟩
    rw [List.mem_filter]
    refine ⟨?_, by simpa using htp p hp⟩
    simpa using hc

theorem candAt_idx (content : List DocElem) (i : Nat) (c : Cand)
    (h : candAt content i = some c) : c.idx = i := by
  unfold candAt at h
  rcases hg : content.get? i with _ | el
  · rw [hg] at h
    cases h
  · rw [hg] at h
    cases el with
    | para s r => cases h
    | table rows =>
        simp only at h
        cases h
        rfl

theorem candidates_doc_order (content : List DocElem) :
    (candidates content).Pairwise (fun a b => a.idx < b.idx) := by
  unfold candidates
  rw [List.pairwise_filterMap]
  refine (List.pairwise_lt_range content.length).imp ?_
  intro i j hij x hx y hy
  rw [candAt_idx content i x hx, candAt_idx content j y hy]
  exact hij

/-- C6: the Table Locator, against any document snapshot and any target path
with at least one non-empty normalized segment: it returns not-found exactly
when no candidate table matches (no fallback); a candidate matches exactly
when some normalized path segment equals one of its three collected heading
texts (set membership); and the returned candidate is the first matching one
in document order (the candidate list is in strictly increasing document
position). -/
theorem choose_table_by_section_spec (content : List DocElem) (section_name : String)
    (hne : split_section_path section_name ≠ []) :
    (choose_table_by_section content section_name = none ↔
      ∀ c ∈ candidates content, ¬ specMatch (split_section_path section_name) c)
    ∧ (∀ c, choose_table_by_section content section_name = some c →
        c ∈ candidates content
        ∧ specMatch (split_section_path section_name) c
        ∧ ∃ pre post, candidates content = pre ++ c :: post
            ∧ ∀ d ∈ pre, ¬ specMatch (split_section_path section_name) d)
    ∧ (candidates content).Pairwise (fun a b => a.idx < b.idx) := by
  have hch : choose_table_by_section content section_name
      = (candidates content).find? (matchesTarget (split_section_path section_name)) := by
    unfold choose_table_by_section
    rw [if_neg hne]
    exact List.filter_head? _ _
  have htp := split_section_path_ne_empty section_name
  refine ⟨?_, ?_, candidates_doc_order content⟩
  · rw [hch, List.find?_eq_none]
    constructor
    · intro h c hc hm
      exact h c hc ((matchesTarget_iff _ c htp).mpr hm)
    · intro h c hc hm
      exact h c hc ((matchesTarget_iff _ c htp).mp hm)
  · intro c hc
    rw [hch] at hc
    have hmem := List.mem_of_find?_eq_some hc
    have hp := List.find?_some hc
    rcases List.find?_eq_some.mp hc with ⟨_, pre, post, heq, hpre⟩
    refine ⟨hmem, (matchesTarget_iff _ c htp).mp hp, pre, post, heq, ?_⟩
    intro d hd hm
    have := hpre d hd
    rw [(matchesTarget_iff _ d htp).mpr hm] at this
    cases this

theorem choose_table_by_section_spec_witness :
    (∀ c ∈ candidates [DocElem.para "HEADING_1" ["A"], DocElem.para "HEADING_2" ["B"],
        DocElem.table [["t1"]], DocElem.para "HEADING_2" ["C"], DocElem.table [["t2"]]],
      ¬ specMatch (split_section_path "Z") c)
    ∧ specMatch (split_section_path "C") ⟨4, [["t2"]], "A", "C", ""⟩ := by
  constructor
  · exact (choose_table_by_section_spec
      [DocElem.para "HEADING_1" ["A"], DocElem.para "HEADING_2" ["B"],
        DocElem.table [["t1"]], DocElem.para "HEADING_2" ["C"], DocElem.table [["t2"]]]
      "Z" (by decide)).1.mp (by rfl)
  · exact ((choose_table_by_section_spec
      [DocElem.para "HEADING_1" ["A"], DocElem.para "HEADING_2" ["B"],
        DocElem.table [["t1"]], DocElem.para "HEADING_2" ["C"], DocElem.table [["t2"]]]
      "C" (by decide)).2.1 ⟨4, [["t2"]], "A", "C", ""⟩ (by rfl)).2.1

/-! ## Rebuild lemmas (C2, C10) -/

theorem clearTableBody_eq_take (t : List Row) : clearTableBody t = t.take 1 := by
  induction t using clearTableBody.induct with
  | case1 t hle =>
      rw [clearTableBody, dif_pos hle]
      exact (List.take_of_length_le hle).symm
  | case2 t hle ih =>
      rw [clearTableBody, dif_neg hle]
      rcases t with _ | ⟨a, _ | ⟨b, rest⟩⟩
      · cases hle (by simp)
      · cases hle (by simp)
      · simpa [List.eraseIdx] using ih

theorem toRow_length (it : BatchEntry) : (toRow it).length = 5 := rfl

theorem fillRow_self (n : Nat) (data : Row) (h : data.length = n) :
    fillRow n n data = data := by
  apply List.ext_getElem
  · simp [fillRow, h]
  · intro i h1 h2
    simp only [fillRow, List.getElem_map, List.getElem_range]
    have hi : i < n := by simpa [fillRow] using h1
    rw [if_pos hi]
    rw [List.get?_eq_getElem? , List.getElem?_eq_getElem h2]
    rfl

/-- C2: a successful rebuild makes the located table's rows exactly the
header followed by one row per store entry, the entries sorted by descending
`(date_key(date), int(number))` key: the produced data rows are the sorted
entry list rendered through `toRow` (`date | topic | number | problem |
result`), a permutation of the store's values with pairwise descending keys,
and the header row is unchanged. -/
theorem rebuild_table_from_batch_rows (header : Row) (body : List Row) (batch : Store)
    (hcols : header.length = 5)
    (hnum : ∀ p ∈ batch, (pyInt (eget p.2.number "0")).isSome = true) :
    ∃ sortedItems : List BatchEntry,
      rebuild_table_from_batch (header :: body) batch
          = .ok (some (header :: sortedItems.map toRow))
      ∧ sortedItems.Perm (batch.map Prod.snd)
      ∧ sortedItems.Pairwise (fun a b => keyLe (sortKey b) (sortKey a) = true)
      ∧ sortedItems.length = batch.length := by
  have hall : (batch.map Prod.snd).all
      (fun it => (pyInt (eget it.number "0")).isSome) = true := by
    rw [List.all_eq_true]
    intro it hit
    rcases List.mem_map.mp hit with ⟨p, hp, rfl⟩
    exact hnum p hp
  refine ⟨(batch.map Prod.snd).mergeSort descLe, ?_, ?_, ?_, ?_⟩
  · unfold rebuild_table_from_batch
    show (if ((batch.map Prod.snd).all fun it => (pyInt (eget it.number "0")).isSome) = true
        then Except.ok (append_rows_and_fill_docs (clearTableBody (header :: body))
          (((batch.map Prod.snd).mergeSort descLe).map toRow))
        else Except.error ())
      = Except.ok (some (header :: ((batch.map Prod.snd).mergeSort descLe).map toRow))
    rw [if_pos hall, clearTableBody_eq_take]
    simp only [List.take_succ_cons, List.take_zero]
    rcases hs : (batch.map Prod.snd).mergeSort descLe with _ | ⟨e0, rest⟩
    · simp [append_rows_and_fill_docs]
    · unfold append_rows_and_fill_docs
      rw [if_neg (by simp)]
      simp only [List.headD_cons]
      have hmapfill : ((e0 :: rest).map toRow).map
          (fillRow header.length (toRow e0).length) = (e0 :: rest).map toRow := by
        rw [hcols, toRow_length]
        rw [List.map_map]
        apply List.map_congr_left
        intro it _
        exact fillRow_self 5 (toRow it) (toRow_length it)
      rw [show ((e0 :: rest).map toRow).headD [] = toRow e0 from rfl, hmapfill]
      rfl
  · exact List.mergeSort_perm (batch.map Prod.snd) descLe
  · exact List.sorted_mergeSort descLe_trans descLe_total (batch.map Prod.snd)
  · rw [(List.mergeSort_perm (batch.map Prod.snd) descLe).length_eq, List.length_map]

theorem rebuild_table_from_batch_rows_witness :
    ∃ sortedItems : List BatchEntry,
      rebuild_table_from_batch [["date", "topic", "number", "problem", "result"],
          ["old", "old", "old", "old", "old"]]
        [("101", ⟨some "02-01-2024", some "t1", some "101", some "p1", some "AC"⟩),
         ("205", ⟨some "01-01-2024", some "t2", some "205", some "p2", some "AC"⟩)]
          = .ok (some (["date", "topic", "number", "problem", "result"]
              :: sortedItems.map toRow))
      ∧ sortedItems.Perm
          (([("101", ⟨some "02-01-2024", some "t1", some "101", some "p1", some "AC"⟩),
            ("205", ⟨some "01-01-2024", some "t2", some "205", some "p2", some "AC"⟩)] : Store).map
              Prod.snd)
      ∧ sortedItems.Pairwise (fun a b => keyLe (sortKey b) (sortKey a) = true)
      ∧ sortedItems.length
          = ([("101", ⟨some "02-01-2024", some "t1", some "101", some "p1", some "AC"⟩),
             ("205", ⟨some "01-01-2024", some "t2", some "205", some "p2", some "AC"⟩)] : Store).length :=
  rebuild_table_from_batch_rows ["date", "topic", "number", "problem", "result"]
    [["old", "old", "old", "old", "old"]]
    [("101", ⟨some "02-01-2024", some "t1", some "101", some "p1", some "AC"⟩),
     ("205", ⟨some "01-01-2024", some "t2", some "205", some "p2", some "AC"⟩)]
    (by decide) (by decide)

/-! ## Sort totality (C10) and classification crash (C4) -/

/-- C10: the rebuild's sort is total exactly under the precondition that
every stored entry's `number` (default `"0"`) parses as a decimal integer:
any batch satisfying it rebuilds without raising, while a batch holding an
entry whose `number` is the empty string makes `rebuild_table_from_batch`
raise an uncaught `ValueError` from `int()` instead of returning a failure
result. -/
theorem rebuild_sort_totality (t : List Row) (batch : Store)
    (hnum : ∀ p ∈ batch, (pyInt (eget p.2.number "0")).isSome = true) :
    (∃ r, rebuild_table_from_batch t batch = .ok r)
    ∧ rebuild_table_from_batch [["date", "topic", "number", "problem", "result"]]
        [("", ⟨some "01-01-2024", some "x", some "", some "p", some "AC"⟩)]
        = .error () := by
  constructor
  · have hall : (batch.map Prod.snd).all
        (fun it => (pyInt (eget it.number "0")).isSome) = true := by
      rw [List.all_eq_true]
      intro it hit
      rcases List.mem_map.mp hit with ⟨p, hp, rfl⟩
      exact hnum p hp
    unfold rebuild_table_from_batch
    show (∃ r, (if ((batch.map Prod.snd).all fun it => (pyInt (eget it.number "0")).isSome) = true
        then Except.ok (append_rows_and_fill_docs (clearTableBody t)
          (((batch.map Prod.snd).mergeSort descLe).map toRow))
        else Except.error ()) = Except.ok r)
    rw [if_pos hall]
    exact ⟨_, rfl⟩
  · rfl

theorem rebuild_sort_totality_witness :
    ∃ r, rebuild_table_from_batch [["h1", "h2", "h3", "h4", "h5"]]
        [("7", ⟨some "01-01-2024", some "x", some "7", some "p", some "AC"⟩)] = .ok r :=
  (rebuild_sort_totality [["h1", "h2", "h3", "h4", "h5"]]
    [("7", ⟨some "01-01-2024", some "x", some "7", some "p", some "AC"⟩)] (by decide)).1

/-- C4: the code, not the claim, is at fault.  For a row with result `"AC"`,
compiler `"java"` and a problem URL whose identifier is absent from the
reference lookup, `getCodeAndTopic` returns the 2-tuple `("", "")` (its
`except` path, contradicting its own docstring `Return (number, code,
topic)`), and the caller's 3-way unpacking raises an uncaught `ValueError`
that aborts the whole run — classification neither rejects the row nor
defaults the topic to `"Unknown"`. -/
theorem classify_unresolved_identifier_raises :
    (pytrim "AC" = "AC" ∧ pylower (pytrim "java") = "java")
    ∧ getCodeAndTopic (some [⟨"123", "J03007", "arrays"⟩]) "https://x/UNKNOWN1" = ["", ""]
    ∧ make_batch_entry (some [⟨"123", "J03007", "arrays"⟩])
        ⟨"1", "", "Problem A", "AC", some "https://x/UNKNOWN1", "java"⟩ = Except.error ()
    ∧ runSync (some [⟨"123", "J03007", "arrays"⟩]) []
        [⟨"1", "", "Problem A", "AC", some "https://x/UNKNOWN1", "java"⟩] = Except.error () :=
  ⟨⟨rfl, rfl⟩, rfl, rfl, rfl⟩


/-! ## Insertion-ordering lemmas (C1) -/

theorem applyInsert_length (doc : List Char) (o : Nat) (t : List Char)
    (h : o ≤ doc.length) : (applyInsert doc (o, t)).length = doc.length + t.length := by
  simp only [applyInsert, List.length_append, List.length_take, List.length_drop]
  omega

theorem shiftOps_append (n : Nat) (l1 l2 : List InsertOp) :
    shiftOps n (l1 ++ l2) = shiftOps n l1 ++ shiftOps n l2 := by
  simp [shiftOps]

/-- Inserting the highest-offset text first leaves the simultaneous meaning
of the remaining (lower-offset) insertions intact. -/
theorem insertsSimul_append_last : ∀ (asc : List InsertOp) (doc : List Char) (o : Nat)
    (t : List Char), (∀ q ∈ asc, q.1 < o) → o ≤ doc.length →
    insertsSimul doc (asc ++ [(o, t)]) = insertsSimul (applyInsert doc (o, t)) asc
  | [], doc, o, t, _, _ => by
      simp [insertsSimul, shiftOps, applyInsert]
  | (o1, t1) :: asc', doc, o, t, hlt, hle => by
      have ho1 : o1 < o := hlt (o1, t1) (by simp)
      have hA : (applyInsert doc (o, t)).take o1 = doc.take o1 := by
        simp only [applyInsert]
        rw [List.take_append_eq_append_take, List.take_append_eq_append_take]
        have h1 : o1 - (List.take o doc).length = 0 := by
          rw [List.length_take]
          omega
        have h2 : o1 - (List.take o doc ++ t).length = 0 := by
          rw [List.length_append, List.length_take]
          omega
        rw [h1, h2, List.take_zero, List.take_zero, List.append_nil, List.append_nil,
          List.take_take, Nat.min_eq_left (Nat.le_of_lt ho1)]
      have hB : (applyInsert doc (o, t)).drop o1
          = applyInsert (doc.drop o1) (o - o1, t) := by
        simp only [applyInsert]
        rw [List.append_assoc, List.drop_append_eq_append_drop, List.length_take]
        have h1 : o1 - min o doc.length = 0 := by omega
        rw [h1, List.drop_zero, List.drop_take, List.drop_drop]
        have h2 : o1 + (o - o1) = o := by omega
        rw [h2, List.append_assoc]
      have hcond : ∀ q ∈ shiftOps o1 asc', q.1 < o - o1 := by
        intro q hq
        rcases List.mem_map.mp hq with ⟨q', hq', rfl⟩
        have := hlt q' (List.mem_cons_of_mem _ hq')
        simp only
        omega
      have hle' : o - o1 ≤ (doc.drop o1).length := by
        rw [List.length_drop]
        omega
      rw [List.cons_append]
      simp only [insertsSimul]
      rw [hA, hB, shiftOps_append]
      rw [show shiftOps o1 [(o, t)] = [(o - o1, t)] from rfl]
      rw [insertsSimul_append_last (shiftOps o1 asc') (doc.drop o1) (o - o1) t hcond hle']
termination_by asc _ _ _ => asc.length
decreasing_by
  simp [shiftOps]

/-- Descending application equals the simultaneous (snapshot-faithful)
insertion semantics. -/
theorem applyOps_desc_eq_simul (l : List InsertOp) :
    ∀ doc : List Char, l.Pairwise (fun a b => b.1 < a.1) →
      (∀ op ∈ l, op.1 ≤ doc.length) →
      applyOps doc l = insertsSimul doc l.reverse := by
  induction l with
  | nil =>
      intro doc _ _
      simp [applyOps, insertsSimul]
  | cons op rest ih =>
      intro doc hpw hbd
      rcases op with ⟨o, t⟩
      rw [List.pairwise_cons] at hpw
      have ho : o ≤ doc.length := hbd (o, t) (by simp)
      have hbd' : ∀ q ∈ rest, q.1 ≤ (applyInsert doc (o, t)).length := by
        intro q hq
        rw [applyInsert_length doc o t ho]
        have := hbd q (List.mem_cons_of_mem _ hq)
        omega
      show applyOps (applyInsert doc (o, t)) rest = insertsSimul doc ((o, t) :: rest).reverse
      rw [List.reverse_cons,
        insertsSimul_append_last rest.reverse doc o t
          (fun q hq => hpw.1 q (List.mem_reverse.mp hq)) ho]
      exact ih (applyInsert doc (o, t)) hpw.2 hbd'

/-- The cumulative position update applied by a sequence of insertions. -/
def applyShifts (ops : List InsertOp) (p : Nat) : Nat :=
  ops.foldl (fun q op => shiftPos op.1 op.2.length q) p

theorem landedAux_eq (ops : List InsertOp) :
    ∀ acc : List Nat,
      landedAux acc ops = acc.map (applyShifts ops) ++ landedPositions ops := by
  induction ops with
  | nil =>
      intro acc
      show acc = acc.map (applyShifts []) ++ landedPositions []
      rw [show acc.map (applyShifts []) = acc.map id from rfl, List.map_id,
        show landedPositions ([] : List InsertOp) = [] from rfl, List.append_nil]
  | cons op rest ih =>
      intro acc
      rcases op with ⟨o, t⟩
      show landedAux (acc.map (shiftPos o t.length) ++ [o]) rest = _
      rw [ih, List.map_append, List.map_map]
      rw [show landedPositions ((o, t) :: rest) = landedAux [o] rest from rfl, ih [o]]
      rw [List.append_assoc]
      rfl

theorem applyShifts_of_le (ops : List InsertOp) :
    ∀ p, (∀ q ∈ ops, q.1 ≤ p) →
      applyShifts ops p = p + (ops.map (fun q => q.2.length)).sum := by
  induction ops with
  | nil => intro p _; simp [applyShifts]
  | cons q rest ih =>
      intro p hq
      show applyShifts rest (shiftPos q.1 q.2.length p) = _
      rw [show shiftPos q.1 q.2.length p = p + q.2.length from by
        unfold shiftPos; rw [if_pos (hq q (by simp))]]
      rw [ih (p + q.2.length)
        (fun r hr => le_trans (hq r (List.mem_cons_of_mem _ hr)) (Nat.le_add_right _ _))]
      simp only [List.map_cons, List.sum_cons]
      omega

/-- Descending application lands every text exactly at its intended final
position (its snapshot offset plus the room made by lower-offset texts). -/
theorem landed_desc (l : List InsertOp) (h : l.Pairwise (fun a b => b.1 < a.1)) :
    landedPositions l = l.map (intendedPos l) := by
  induction l with
  | nil => rfl
  | cons op rest ih =>
      rcases op with ⟨o, t⟩
      rw [List.pairwise_cons] at h
      have hlt : ∀ q ∈ rest, q.1 < o := h.1
      rw [show landedPositions ((o, t) :: rest) = landedAux [o] rest from rfl,
        landedAux_eq, ih h.2]
      simp only [List.map_cons, List.map_nil, List.singleton_append]
      congr 1
      · rw [applyShifts_of_le rest o (fun q hq => le_of_lt (hlt q hq))]
        unfold intendedPos
        have hfilt : List.filter (fun q => decide (q.1 < o)) ((o, t) :: rest) = rest := by
          rw [List.filter_cons_of_neg (by simp)]
          exact List.filter_eq_self.mpr (fun q hq => by simpa using hlt q hq)
        rw [hfilt]
      · apply List.map_congr_left
        intro q hq
        unfold intendedPos
        have : List.filter (fun r => decide (r.1 < q.1)) ((o, t) :: rest)
            = List.filter (fun r => decide (r.1 < q.1)) rest := by
          rw [List.filter_cons_of_neg]
          simp only [decide_eq_true_eq]
          have := hlt q hq
          omega
        rw [this]

theorem landedAux_getLast? (l : List InsertOp) :
    ∀ acc, l ≠ [] → (landedAux acc l).getLast? = l.getLast?.map Prod.fst := by
  induction l with
  | nil => intro acc h; cases h rfl
  | cons op rest ih =>
      intro acc _
      rcases op with ⟨o, t⟩
      cases rest with
      | nil =>
          show (acc.map (shiftPos o t.length) ++ [o]).getLast? = _
          rw [List.getLast?_concat]
          rfl
      | cons op2 rest2 =>
          show (landedAux (acc.map (shiftPos o t.length) ++ [o]) (op2 :: rest2)).getLast? = _
          rw [ih _ (by simp), List.getLast?_cons_cons]

theorem mem_le_sum_nat (l : List Nat) (a : Nat) (h : a ∈ l) : a ≤ l.sum := by
  induction l with
  | nil => cases h
  | cons b rest ih =>
      rcases List.mem_cons.mp h with rfl | h'
      · rw [List.sum_cons]
        exact Nat.le_add_right _ _
      · have := ih h'
        rw [List.sum_cons]
        omega

/-- Ascending application displaces at least one target: the last-applied
(highest-offset) insertion lands at its stale snapshot offset, strictly below
its intended final position. -/
theorem landed_asc_ne (l : List InsertOp)
    (hpw : l.Pairwise (fun a b => a.1 < b.1)) (hlen : 2 ≤ l.length)
    (hne : ∀ op ∈ l, op.2 ≠ []) :
    landedPositions l ≠ l.map (intendedPos l) := by
  intro heq
  rcases l with _ | ⟨a, rest⟩
  · simp at hlen
  rcases rest with _ | ⟨b, rest2⟩
  · simp at hlen
  have hrest : (b :: rest2) ≠ [] := by simp
  set last := (b :: rest2).getLast hrest with hlastdef
  have hlast : (b :: rest2).getLast? = some last := List.getLast?_eq_getLast _ hrest
  have h1 : (landedPositions (a :: b :: rest2)).getLast? = some last.1 := by
    rw [landedPositions, landedAux_getLast? _ [] (by simp),
      List.getLast?_cons_cons, hlast]
    rfl
  have h2 : ((a :: b :: rest2).map (intendedPos (a :: b :: rest2))).getLast?
      = some (intendedPos (a :: b :: rest2) last) := by
    rw [List.getLast?_map, List.getLast?_cons_cons, hlast]
    rfl
  rw [heq, h2] at h1
  have heq2 : intendedPos (a :: b :: rest2) last = last.1 := Option.some.inj h1
  have hlastmem : last ∈ b :: rest2 := List.getLast_mem hrest
  have halt : a.1 < last.1 := (List.pairwise_cons.mp hpw).1 last hlastmem
  have hamem : a ∈ List.filter (fun q => decide (q.1 < last.1)) (a :: b :: rest2) := by
    rw [List.mem_filter]
    exact ⟨by simp, by simpa using halt⟩
  have hlen1 : 1 ≤ a.2.length := by
    have := hne a (by simp)
    exact List.length_pos.mpr this
  have hsum : a.2.length
      ≤ ((List.filter (fun q => decide (q.1 < last.1)) (a :: b :: rest2)).map
          (fun q => q.2.length)).sum :=
    mem_le_sum_nat _ _ (List.mem_map_of_mem _ hamem)
  unfold intendedPos at heq2
  omega

/-- C1: for insertions whose offsets all come from one snapshot and are
pairwise distinct, applying them in descending offset order (the order the
rebuilder's sort establishes) reproduces the snapshot-faithful simultaneous
insertion — every text is placed at its originally computed offset, landing
at its intended final position — whereas applying non-empty texts in
ascending order displaces at least one target. -/
theorem insert_order_correctness (doc : List Char) (l : List InsertOp) :
    (l.Pairwise (fun a b => b.1 < a.1) → (∀ op ∈ l, op.1 ≤ doc.length) →
        applyOps doc l = insertsSimul doc l.reverse
        ∧ landedPositions l = l.map (intendedPos l))
    ∧ (l.Pairwise (fun a b => a.1 < b.1) → 2 ≤ l.length → (∀ op ∈ l, op.2 ≠ []) →
        landedPositions l ≠ l.map (intendedPos l)) :=
  ⟨fun h1 h2 => ⟨applyOps_desc_eq_simul l doc h1 h2, landed_desc l h1⟩,
   fun h1 h2 h3 => landed_asc_ne l h1 h2 h3⟩

theorem insert_order_correctness_witness :
    (applyOps "0123456789".toList [(4, ['X', 'Y']), (2, ['Z'])]
        = insertsSimul "0123456789".toList [(2, ['Z']), (4, ['X', 'Y'])])
    ∧ landedPositions [(2, ['Z']), (4, ['X', 'Y'])]
        ≠ [(2, ['Z']), (4, ['X', 'Y'])].map (intendedPos [(2, ['Z']), (4, ['X', 'Y'])]) := by
  constructor
  · have h := ((insert_order_correctness "0123456789".toList
      [(4, ['X', 'Y']), (2, ['Z'])]).1 (by decide) (by decide)).1
    simpa using h
  · exact (insert_order_correctness "0123456789".toList
      [(2, ['Z']), (4, ['X', 'Y'])]).2 (by decide) (by decide) (by decide)

end SyncDocs
